import Mathlib

/-!
Verification development for the investor-qa-assistant retrieval-and-answer
pipeline (Python backend under src/backend/).

Each Python function the claims touch is shallowly embedded as a Lean
definition, keeping the source's control flow.  Machine floats are modelled
as real numbers, Python strings as `String`/`List Char` (core `String`
operations do not reduce in the kernel, so the primitive string operations
used by the source — split, strip, replace, startswith, lower, join — are
re-implemented structurally over `List Char`, matching Python semantics for
the ASCII texts this program handles).
-/

set_option maxHeartbeats 1000000
set_option linter.unusedVariables false

namespace InvestorQA

/-! ### Primitive string operations (Python `str` methods, over `List Char`) -/

/-- Python `str.split("\n")`: split on every newline; `""` splits to `[""]`. -/
def splitOnNl : List Char → List (List Char)
  | [] => [[]]
  | c :: rest =>
    if c = '\n' then [] :: splitOnNl rest
    else
      match splitOnNl rest with
      | [] => [[c]]
      | h :: t => (c :: h) :: t

/-- Python `str.strip()` (whitespace on both ends; ASCII whitespace). -/
def stripChars (l : List Char) : List Char :=
  ((l.dropWhile Char.isWhitespace).reverse.dropWhile Char.isWhitespace).reverse

/-- Worker for `replaceAll`: `skip` counts pattern characters still to be
consumed after a match was emitted.  Structural on the subject list. -/
def replaceGo (pat repl : List Char) : Nat → List Char → List Char
  | _, [] => []
  | s + 1, _ :: rest => replaceGo pat repl s rest
  | 0, c :: rest =>
    if pat.isPrefixOf (c :: rest) then
      repl ++ replaceGo pat repl (pat.length - 1) rest
    else
      c :: replaceGo pat repl 0 rest

/-- Python `str.replace(pat, repl)`: replace every (non-overlapping,
left-to-right) occurrence.  The source only calls it with non-empty
patterns, so the empty pattern is mapped to the identity. -/
def replaceAll (pat repl l : List Char) : List Char :=
  if pat = [] then l else replaceGo pat repl 0 l

/-- Python `"sep".join(pieces)`. -/
def intercalateChars (sep : List Char) : List (List Char) → List Char
  | [] => []
  | [x] => x
  | x :: y :: rest => x ++ sep ++ intercalateChars sep (y :: rest)

/-- Python `pat in hay` (substring containment). -/
def containsSub (hay pat : List Char) : Bool :=
  hay.tails.any (fun t => pat.isPrefixOf t)

/-- Python `str.lower()` (ASCII case folding). -/
def toLowerChars (l : List Char) : List Char :=
  l.map Char.toLower

/-! ### `claude_interface.py` — response parsing

Embeds `ClaudeInterface._parse_response`, `_extract_confidence_score` and
`_clean_answer_text` (src/backend/claude_interface.py lines 97-195). -/

/-- The structured result of `_parse_response`:
`{answer, confidence, reasoning}`. -/
structure ParsedResponse where
  answer : String
  confidence : Nat
  reasoning : String
deriving DecidableEq

/-- Value of the first maximal digit run, given its digits-first input. -/
def digitRunValue (acc : Nat) : List Char → Nat
  | [] => acc
  | c :: rest => if c.isDigit then digitRunValue (acc * 10 + (c.toNat - 48)) rest else acc

/-- Python `re.findall(r'\d+', text)` first match, as a number
(`int(numbers[0])`); `none` when the text has no digit. -/
def firstNumber : List Char → Option Nat
  | [] => none
  | c :: rest => if c.isDigit then some (digitRunValue 0 (c :: rest)) else firstNumber rest

/-- `ClaudeInterface._extract_confidence_score` (lines 160-184): first digit
run clamped to [0,100], else keyword families, else 50. -/
def extractConfidenceScore (confidenceText : List Char) : Nat :=
  match firstNumber confidenceText with
  | some score => max 0 (min 100 score)
  | none =>
    let lower := toLowerChars confidenceText
    if ["high".toList, "very confident".toList, "certain".toList].any
        (fun w => containsSub lower w) then 85
    else if ["medium".toList, "moderate".toList, "somewhat".toList].any
        (fun w => containsSub lower w) then 65
    else if ["low".toList, "uncertain".toList, "unclear".toList].any
        (fun w => containsSub lower w) then 35
    else 50

/-- The section currently being captured while scanning the reply. -/
inductive SectionTag where
  | answer
  | confidence
  | reasoning
deriving DecidableEq

/-- Parser state of the line scan in `_parse_response`: the active section
and the fields accumulated so far (initialised to `"", 50, ""`). -/
structure ParseState where
  currentSection : Option SectionTag
  answer : List Char
  confidence : Nat
  reasoning : List Char

def initState : ParseState :=
  { currentSection := none, answer := [], confidence := 50, reasoning := [] }

/-- One iteration of the `for line in sections` loop of `_parse_response`
(lines 111-141). -/
def processLine (st : ParseState) (rawLine : List Char) : ParseState :=
  let line := stripChars rawLine
  if "ANSWER:".toList.isPrefixOf line then
    let content := stripChars (replaceAll "ANSWER:".toList [] line)
    { st with currentSection := some .answer,
              answer := if content ≠ [] then content else st.answer }
  else if "CONFIDENCE:".toList.isPrefixOf line then
    let confidenceText := stripChars (replaceAll "CONFIDENCE:".toList [] line)
    { st with currentSection := some .confidence,
              confidence := extractConfidenceScore confidenceText }
  else if "REASONING:".toList.isPrefixOf line then
    let content := stripChars (replaceAll "REASONING:".toList [] line)
    { st with currentSection := some .reasoning,
              reasoning := if content ≠ [] then content else st.reasoning }
  else if line ≠ [] then
    match st.currentSection with
    | some .answer =>
      { st with answer := if st.answer ≠ [] then st.answer ++ '\n' :: line else line }
    | some .reasoning =>
      { st with reasoning := if st.reasoning ≠ [] then st.reasoning ++ ' ' :: line else line }
    | _ => st
  else st

/-- `ClaudeInterface._clean_answer_text` (lines 186-195): drop blank lines,
trim each remaining line, re-join with newlines. -/
def cleanAnswerText (answer : List Char) : List Char :=
  if answer = [] then []
  else intercalateChars "\n".toList
    (((splitOnNl answer).map stripChars).filter (fun l => l ≠ []))

/-- Body of the `try` block of `ClaudeInterface._parse_response`
(lines 99-150): scan line by line, clean the answer, and fall back to the
whole raw reply when the answer section came out empty. -/
def parseResponse (responseText : String) : ParsedResponse :=
  let final := (splitOnNl responseText.toList).foldl processLine initState
  let cleaned := cleanAnswerText final.answer
  { answer := String.mk (if cleaned = [] then responseText.toList else cleaned),
    confidence := final.confidence,
    reasoning := String.mk final.reasoning }

/-- `ClaudeInterface._parse_response` with its `try/except` wrapper
(lines 152-158): an exception inside the parse (modelled by the
`excOutcome` oracle carrying the exception text) yields the raw text with
confidence 50 and a parse-failure reasoning note. -/
def parseResponseHandled (excOutcome : Option String) (responseText : String) : ParsedResponse :=
  match excOutcome with
  | some e =>
    { answer := responseText, confidence := 50,
      reasoning := "Error parsing response: " ++ e }
  | none => parseResponse responseText

/-- Output dict of `generate_answer` (claude_interface.py lines 50-55):
`{answer, confidence, reasoning, sources_used}`. -/
structure GenAnswer where
  answer : String
  confidence : Nat
  reasoning : String
  sources_used : Nat := 0

/-! ### `langchain_query_engine.py` — consolidation of per-document answers

Embeds `LangChainQueryEngine._consolidate_responses` (lines 288-347).  The
per-document phase hands it a list of `{filename, response}` entries whose
responses are `generate_answer` dicts; only their `answer` field is read. -/

/-- One per-document entry of `pdf_responses`. -/
structure PdfResponse where
  filename : String
  answer : String

/-- Result shape returned by `_consolidate_responses`. -/
structure ConsolidatedResult where
  answer : String
  confidence : Nat
  reasoning : String

/-- The `responses_text` block: each answer under a `=== filename ===`
heading, joined by blank lines (lines 292-295). -/
def responsesText (pdfResponses : List PdfResponse) : String :=
  String.intercalate "\n\n"
    (pdfResponses.map (fun r => "=== " ++ r.filename ++ " ===\n" ++ r.answer))

/-- `_consolidate_responses`: the consolidation provider call either
returns a `generate_answer` dict (`some`) or raises (`none`, the `except`
branch).  On success the reported confidence is capped with `min(85, ·)`;
on failure the per-document answers are concatenated under
`**From filename:**` labels with fixed confidence 70. -/
def consolidateResponses (pdfResponses : List PdfResponse)
    (providerOutcome : Option GenAnswer) : ConsolidatedResult :=
  match providerOutcome with
  | some response =>
    { answer := response.answer ++ "\n\n---\n\n**Individual PDF Responses:**\n\n" ++
        responsesText pdfResponses,
      confidence := min 85 response.confidence,
      reasoning := "Consolidated analysis from " ++ toString pdfResponses.length ++
        " PDF documents" }
  | none =>
    { answer := String.intercalate "\n\n"
        (pdfResponses.map (fun r => "**From " ++ r.filename ++ ":**\n" ++ r.answer)),
      confidence := 70,
      reasoning := "Combined responses from " ++ toString pdfResponses.length ++
        " PDF documents (consolidation failed)" }

/-! ### `embedding_store.py` — cosine similarity and similarity search -/

/-- `np.dot` on two 1-D float vectors (sum of pointwise products). -/
def dotList (a b : List ℝ) : ℝ :=
  (List.zipWith (fun x y => x * y) a b).sum

/-- `np.linalg.norm` (Euclidean norm). -/
noncomputable def normList (a : List ℝ) : ℝ :=
  Real.sqrt (dotList a a)

/-- `EmbeddingStore._cosine_similarity` (lines 266-279):
`dot(a,b) / (normA * normB)`, and `0.0` when either norm is zero. -/
noncomputable def cosineSimilarity (a b : List ℝ) : ℝ :=
  if normList a = 0 ∨ normList b = 0 then 0
  else dotList a b / (normList a * normList b)

/-- A row of the `chunks` table as flattened by
`Database.get_all_chunks_with_embeddings` (database.py lines 176-184):
chunk data plus the owning document's filename and confidentiality flag.
`embedding` is `none` for a missing or unparsable stored embedding. -/
structure StoredChunk where
  pdf_id : String
  chunk_text : String
  chunk_index : Nat
  embedding : Option (List ℝ)
  filename : String
  is_confidential : Bool

/-- A search result: the chunk dict merged with its `similarity` score
(embedding_store.py lines 248-251). -/
structure ScoredChunk where
  chunk : StoredChunk
  similarity : ℝ

/-- `Database.get_all_chunks_with_embeddings(limit)` (lines 162-198): the
supabase query takes the first `limit` rows of the chunks table (no
confidentiality filter, no similarity ordering). -/
def getAllChunksWithEmbeddings (table : List StoredChunk) (limit : Nat) : List StoredChunk :=
  table.take limit

/-- Body of the per-candidate scoring loop (embedding_store.py lines
226-254): skip a candidate without a usable embedding (Python truthiness
drops `None` and `[]`, and unparsable stored strings — modelled by
`embedding = none` — are skipped by the inner `except`), otherwise score
it and keep it only when `similarity >= min_similarity`. -/
noncomputable def scoreChunk (queryEmbedding : List ℝ) (minSimilarity : ℝ)
    (c : StoredChunk) : Option ScoredChunk :=
  match c.embedding with
  | none => none
  | some emb =>
    if emb = [] then none
    else
      let similarity := cosineSimilarity queryEmbedding emb
      if minSimilarity ≤ similarity then some { chunk := c, similarity := similarity }
      else none

/-- The comparison of `results.sort(key=..., reverse=True)`: descending by
similarity (a stable sort, like Python's). -/
noncomputable def searchLe (a b : ScoredChunk) : Bool :=
  decide (b.similarity ≤ a.similarity)

/-- `EmbeddingStore.search_similar_chunks` (lines 186-260), given the
already-computed query embedding: fetch at most 50 candidate rows from the
store, score them, keep scores `≥ min_similarity`, stable-sort by
descending similarity, and truncate to `limit`. -/
noncomputable def searchSimilarChunks (queryEmbedding : List ℝ) (table : List StoredChunk)
    (limit : Nat) (minSimilarity : ℝ) : List ScoredChunk :=
  let chunks := getAllChunksWithEmbeddings table 50
  let results := chunks.filterMap (scoreChunk queryEmbedding minSimilarity)
  let sorted := results.mergeSort searchLe
  sorted.take limit

/-- The rows `EmbeddingStore.store_chunks` inserts for one document
(lines 74-95): one row per chunk whose embedding generation succeeded
(`none` marks a failed chunk, which is skipped). -/
def storeChunksRows (pdfId filename : String) (chunks : List (String × Nat))
    (embs : List (Option (List ℝ))) : List StoredChunk :=
  (chunks.zip embs).filterMap (fun p =>
    match p.2 with
    | some emb => some
      { pdf_id := pdfId, chunk_text := p.1.1, chunk_index := p.1.2,
        embedding := some emb, filename := filename, is_confidential := false }
    | none => none)

/-- Effect of `upload_pdfs` on the chunks table for one uploaded file
(main.py lines 133-148): embeddings are generated and stored only when the
file is not confidential and embeddings are not globally skipped;
otherwise the chunks table is untouched. -/
def ingestDocument (table : List StoredChunk) (pdfId : String)
    (isConfidential skipEmbeddings : Bool) (filename : String)
    (chunks : List (String × Nat)) (embs : List (Option (List ℝ))) : List StoredChunk :=
  if !isConfidential && !skipEmbeddings then
    table ++ storeChunksRows pdfId filename chunks embs
  else table

/-! ### Substring search (`str.rfind`), shared by the chunker and previews -/

/-- Does `pat` occur in `text` starting at index `i`? -/
def matchesAt (text pat : List Char) (i : Nat) : Bool :=
  pat.isPrefixOf (text.drop i)

/-- The candidate indices for `text.rfind(pat, lo, hi)` in increasing
order: `pat` must lie entirely inside `text[lo:hi]` (with `hi` clamped to
the text length, as Python clamps slice bounds). -/
def rfindCands (text pat : List Char) (lo hi : Nat) : List Nat :=
  (List.range (min hi text.length + 1)).filter
    (fun i => decide (lo ≤ i) && decide (i + pat.length ≤ min hi text.length) &&
      matchesAt text pat i)

/-- Python `text.rfind(pat, lo, hi)`: the highest index `i ≥ lo` at which
`pat` occurs entirely inside `text[lo:hi]`, or `-1` if there is none. -/
def rfindList (text pat : List Char) (lo hi : Nat) : Int :=
  match (rfindCands text pat lo hi).getLast? with
  | some i => (i : Int)
  | none => -1

/-! ### `query_engine.py` — chunk-based query orchestrator -/

/-- One `sources[]` entry (query_engine.py lines 73-80). -/
structure SourceInfo where
  filename : String
  chunkIndex : Nat
  relevanceScore : ℝ
  preview : String

/-- The response dict of `QueryEngine.answer_question`. -/
structure QAResponse where
  answer : String
  confidence : Nat
  reasoning : String
  sources : List SourceInfo
  chunksFound : Nat
  question : String

/-- `round(x, 1)` on the similarity percentage.  Modelled as
floor-based rounding to one decimal (Python rounds floats half-to-even;
no claim depends on the tie behaviour). -/
noncomputable def roundTo1 (x : ℝ) : ℝ :=
  (⌊x * 10 + 1 / 2⌋ : ℝ) / 10

/-- `QueryEngine._get_chunk_preview` (lines 84-108): truncate to
`maxLength`, preferring a sentence boundary in the last 30% of the window,
else a word boundary in the last 20%, else a hard cut, with an ellipsis.
The float thresholds `max_length * 0.7` and `* 0.8` are exact at the
default 150 and modelled as rationals. -/
def getChunkPreview (text : List Char) (maxLength : Nat) : List Char :=
  if text = [] then []
  else if text.length ≤ maxLength then text
  else
    let truncated := text.take maxLength
    let lastSentence := max (rfindList truncated ". ".toList 0 truncated.length)
      (max (rfindList truncated "! ".toList 0 truncated.length)
        (rfindList truncated "? ".toList 0 truncated.length))
    if (lastSentence : ℚ) > (maxLength : ℚ) * 7 / 10 then
      truncated.take (lastSentence.toNat + 1) ++ "...".toList
    else
      let lastSpace := rfindList truncated " ".toList 0 truncated.length
      if (lastSpace : ℚ) > (maxLength : ℚ) * 8 / 10 then
        truncated.take lastSpace.toNat ++ "...".toList
      else truncated ++ "...".toList

/-- `QueryEngine._build_source_info` (lines 69-82): filename, chunk index,
similarity as a percentage rounded to one decimal, and a preview. -/
noncomputable def buildSourceInfo (chunks : List ScoredChunk) : List SourceInfo :=
  chunks.map (fun c =>
    { filename := c.chunk.filename,
      chunkIndex := c.chunk.chunk_index,
      relevanceScore := roundTo1 (c.similarity * 100),
      preview := String.mk (getChunkPreview c.chunk.chunk_text.toList 150) })

/-- `QueryEngine._retrieve_relevant_chunks` (lines 44-67): the search call
either returns scored chunks or raises; its `except` branch swallows the
exception and returns the empty list.  (The Python "enhancement" step only
copies the similarity into a duplicate `relevance_score` key.) -/
def retrieveRelevantChunks (searchOutcome : Except String (List ScoredChunk)) :
    List ScoredChunk :=
  match searchOutcome with
  | .ok chunks => chunks
  | .error _ => []

/-- `QueryEngine.answer_question` (lines 12-42).  The two effectful steps
are oracles: `searchOutcome` is what `search_similar_chunks` did (value or
exception), `genOutcome` is what `generate_answer` did.  An exception in
the `try` body — in this flow only the generation call can still raise,
retrieval having caught its own — lands in the `except` branch: a
confidence-0 apology embedding the error text, with empty sources. -/
noncomputable def answerQuestion (question : String)
    (searchOutcome : Except String (List ScoredChunk))
    (genOutcome : Except String GenAnswer) : QAResponse :=
  let relevantChunks := retrieveRelevantChunks searchOutcome
  match genOutcome with
  | .ok response =>
    { answer := response.answer,
      confidence := response.confidence,
      reasoning := response.reasoning,
      sources := buildSourceInfo relevantChunks,
      chunksFound := relevantChunks.length,
      question := question }
  | .error e =>
    { answer := "I apologize, but I encountered an error processing your question: " ++ e,
      confidence := 0,
      reasoning := "Error occurred during processing",
      sources := [],
      chunksFound := 0,
      question := question }

/-! ### `pdf_processor.py` — text chunker

Embeds `PDFProcessor._split_text_into_chunks`, `_find_sentence_boundary`
and `_find_word_boundary` (lines 55-113).  Positions are indices into the
text (a `List Char`); Python's `max(start, end - 200)` agrees with
truncated `Nat` subtraction because a negative `end - 200` loses to
`start ≥ 0` in the `max` anyway. -/

/-- The `best_pos` update for one terminator in the
`for ending in sentence_endings` loop of `_find_sentence_boundary`
(lines 100-103): an `rfind` hit strictly past the current best advances
`best_pos` to just after the terminator. -/
def bestPosStep (text : List Char) (searchStart stop : Nat) (best : Int) (ending : String) :
    Int :=
  if rfindList text ending.toList searchStart stop > best then
    rfindList text ending.toList searchStart stop + ending.toList.length
  else best

/-- The full `best_pos` fold over the six sentence terminators. -/
def sentenceBestPos (text : List Char) (searchStart stop : Nat) (init : Int) : Int :=
  [". ", "! ", "? ", ".\n", "!\n", "?\n"].foldl (bestPosStep text searchStart stop) init

/-- `PDFProcessor._find_sentence_boundary` (lines 93-105): `best_pos`
starts at `start` and is folded over the terminators with a look-back
window of 200 characters; a best strictly beyond `start` wins, else the
nominal end stands. -/
def findSentenceBoundary (text : List Char) (start stop : Nat) : Nat :=
  if sentenceBestPos text (max start (stop - 200)) stop (start : Int) > (start : Int) then
    (sentenceBestPos text (max start (stop - 200)) stop (start : Int)).toNat
  else stop

/-- `PDFProcessor._find_word_boundary` (lines 107-113): the position after
the last space within 100 characters of the end, else the nominal end. -/
def findWordBoundary (text : List Char) (start stop : Nat) : Nat :=
  if rfindList text [' '] (max start (stop - 100)) stop > (start : Int) then
    (rfindList text [' '] (max start (stop - 100)) stop + 1).toNat
  else stop

/-- One iteration's chunk-end computation in `_split_text_into_chunks`
(lines 64-77): nominal end `start + chunk_size`; when that is inside the
text, prefer a sentence boundary, then a word boundary. -/
def chunkEndPos (text : List Char) (chunkSize start : Nat) : Nat :=
  if start + chunkSize < text.length then
    if findSentenceBoundary text start (start + chunkSize) > start then
      findSentenceBoundary text start (start + chunkSize)
    else if findWordBoundary text start (start + chunkSize) > start then
      findWordBoundary text start (start + chunkSize)
    else start + chunkSize
  else start + chunkSize

/-- The `while start < len(text)` loop of `_split_text_into_chunks`
(lines 60-89): emit the stripped slice `text[start:end].strip()` when
non-empty and advance to `max(start + 1, end - chunk_overlap)`. -/
def splitLoop (text : List Char) (chunkSize chunkOverlap start : Nat) : List (List Char) :=
  if start < text.length then
    if stripChars ((text.drop start).take (chunkEndPos text chunkSize start - start)) = [] then
      splitLoop text chunkSize chunkOverlap
        (max (start + 1) (chunkEndPos text chunkSize start - chunkOverlap))
    else
      stripChars ((text.drop start).take (chunkEndPos text chunkSize start - start)) ::
        splitLoop text chunkSize chunkOverlap
          (max (start + 1) (chunkEndPos text chunkSize start - chunkOverlap))
  else []
termination_by text.length - start
decreasing_by
  all_goals
    have hle : start + 1 ≤ max (start + 1) (chunkEndPos text chunkSize start - chunkOverlap) :=
      le_max_left _ _
    omega

/-- `PDFProcessor._split_text_into_chunks` (lines 55-91). -/
def splitTextIntoChunks (text : List Char) (chunkSize chunkOverlap : Nat) : List (List Char) :=
  if text = [] then [] else splitLoop text chunkSize chunkOverlap 0

/-- The `(start, end)` spans the chunking loop visits, one per iteration
in order (also the iterations whose stripped chunk is dropped). -/
def chunkSpans (text : List Char) (chunkSize chunkOverlap start : Nat) : List (Nat × Nat) :=
  if start < text.length then
    (start, chunkEndPos text chunkSize start) ::
      chunkSpans text chunkSize chunkOverlap
        (max (start + 1) (chunkEndPos text chunkSize start - chunkOverlap))
  else []
termination_by text.length - start
decreasing_by
  have hle : start + 1 ≤ max (start + 1) (chunkEndPos text chunkSize start - chunkOverlap) :=
    le_max_left _ _
  omega

example : extractConfidenceScore "I am about 73 percent sure".toList = 73 := by decide

example : extractConfidenceScore "very confident".toList = 85 := by decide

example : extractConfidenceScore "no info".toList = 50 := by decide

/-- A line whose stripped form carries none of the three recognised section
headers leaves the initial parser state untouched. -/
theorem processLine_no_header (raw : List Char)
    (h1 : "ANSWER:".toList.isPrefixOf (stripChars raw) = false)
    (h2 : "CONFIDENCE:".toList.isPrefixOf (stripChars raw) = false)
    (h3 : "REASONING:".toList.isPrefixOf (stripChars raw) = false) :
    processLine initState raw = initState := by
  unfold processLine
  simp only [h1, h2, h3, Bool.false_eq_true, if_false, initState]
  split
  · rfl
  · rfl

/-- Folding the line scan over header-free lines stays at the initial state. -/
theorem foldl_no_header (lines : List (List Char))
    (h : ∀ l ∈ lines,
      "ANSWER:".toList.isPrefixOf (stripChars l) = false ∧
      "CONFIDENCE:".toList.isPrefixOf (stripChars l) = false ∧
      "REASONING:".toList.isPrefixOf (stripChars l) = false) :
    lines.foldl processLine initState = initState := by
  induction lines with
  | nil => rfl
  | cons a t ih =>
    have ha := h a (by simp)
    rw [List.foldl_cons, processLine_no_header a ha.1 ha.2.1 ha.2.2]
    exact ih (fun l hl => h l (by simp [hl]))

/-- C4 (counterexample): parsing the three-section reply
`"ANSWER:\nFoo\nCONFIDENCE:\n80\nREASONING:\nBar"` does NOT yield
confidence 80 — the parser reads a confidence only from text on the
`CONFIDENCE:` header line itself, so the `80` on the following line is
dropped and the default 50 remains. -/
theorem parse_three_section_claimed_result_false :
    parseResponse "ANSWER:\nFoo\nCONFIDENCE:\n80\nREASONING:\nBar" ≠
      { answer := "Foo", confidence := 80, reasoning := "Bar" } := by
  decide

/-- C4 (amended): parsing `"ANSWER:\nFoo\nCONFIDENCE:\n80\nREASONING:\nBar"`
yields answer `"Foo"` and reasoning `"Bar"` but confidence 50, because a
confidence value on the line after the `CONFIDENCE:` header is ignored;
with the value inline (`"CONFIDENCE: 80"`) the parse yields confidence 80. -/
theorem parse_three_section_result :
    parseResponse "ANSWER:\nFoo\nCONFIDENCE:\n80\nREASONING:\nBar" =
      { answer := "Foo", confidence := 50, reasoning := "Bar" } ∧
    parseResponse "ANSWER:\nFoo\nCONFIDENCE: 80\nREASONING:\nBar" =
      { answer := "Foo", confidence := 80, reasoning := "Bar" } :=
  ⟨by decide, by decide⟩

/-- C5: a provider reply in which no line (after stripping) starts with a
recognised section header parses to the entire raw reply as the answer with
confidence 50 and empty reasoning — in particular the answer is non-empty
whenever the reply is — and the `except` fallback of `_parse_response`
(modelled by the exception oracle) returns the full raw text with
confidence 50 and a parse-failure reasoning note.  The Lean parse functions
are total, which models that parsing never propagates an exception. -/
theorem parse_no_header_never_empty (text exc : String)
    (hnh : ∀ l ∈ splitOnNl text.toList,
      "ANSWER:".toList.isPrefixOf (stripChars l) = false ∧
      "CONFIDENCE:".toList.isPrefixOf (stripChars l) = false ∧
      "REASONING:".toList.isPrefixOf (stripChars l) = false) :
    parseResponse text = { answer := text, confidence := 50, reasoning := "" } ∧
    (text ≠ "" → (parseResponse text).answer ≠ "") ∧
    parseResponseHandled (some exc) text =
      { answer := text, confidence := 50,
        reasoning := "Error parsing response: " ++ exc } := by
  have hmain : parseResponse text = { answer := text, confidence := 50, reasoning := "" } := by
    unfold parseResponse
    rw [foldl_no_header _ hnh]
    rfl
  exact ⟨hmain, fun hne => by rw [hmain]; exact hne, rfl⟩

/-- C6: the consolidated confidence is the provider's reported value
capped by `min(85, ·)`, so it never exceeds 85; and when the consolidation
call raises, the fallback is the mechanical concatenation of the
per-document answers under `**From filename:**` labels with confidence
exactly 70. -/
theorem consolidation_confidence_cap (rs : List PdfResponse) (hne : rs ≠ []) :
    (∀ g : GenAnswer, (consolidateResponses rs (some g)).confidence ≤ 85) ∧
    (consolidateResponses rs none).confidence = 70 ∧
    (consolidateResponses rs none).answer =
      String.intercalate "\n\n"
        (rs.map (fun r => "**From " ++ r.filename ++ ":**\n" ++ r.answer)) := by
  refine ⟨fun g => ?_, rfl, rfl⟩
  simp [consolidateResponses]

/-- Witness for C6: one per-document answer, provider stub reporting 99. -/
theorem consolidation_confidence_cap_witness :
    ([⟨"a.pdf", "X"⟩] : List PdfResponse) ≠ [] ∧
    (consolidateResponses [⟨"a.pdf", "X"⟩]
      (some { answer := "S", confidence := 99, reasoning := "" })).confidence ≤ 85 ∧
    (consolidateResponses [⟨"a.pdf", "X"⟩] none).confidence = 70 := by
  have h := consolidation_confidence_cap [⟨"a.pdf", "X"⟩] (by simp)
  exact ⟨by simp, h.1 { answer := "S", confidence := 99, reasoning := "" }, h.2.1⟩

/-- C7 (counterexample): an exception raised inside retrieval does NOT
yield a confidence-0 apology — `_retrieve_relevant_chunks` swallows it and
returns no chunks, after which a successful generation's answer and
confidence (here 80) are returned unchanged. -/
theorem answer_flow_retrieval_exception_not_zero :
    (answerQuestion "q" (Except.error "search failed")
      (Except.ok { answer := "Fine answer", confidence := 80, reasoning := "" })).confidence
      ≠ 0 := by
  decide

/-- C7 (amended): an exception raised in the generation or response
assembly part of `answer_question`'s `try` body yields a well-formed
response with confidence 0, an apologetic answer embedding the error text,
empty sources and `chunks_found` 0 — never a propagated exception (the
embedding is total) — while an exception inside retrieval is caught there,
degrading to empty retrieved chunks (empty sources, `chunks_found` 0) with
generation proceeding normally. -/
theorem answer_flow_exception_handling (question : String)
    (searchOutcome : Except String (List ScoredChunk)) (e : String) (g : GenAnswer) :
    answerQuestion question searchOutcome (Except.error e) =
      { answer := "I apologize, but I encountered an error processing your question: " ++ e,
        confidence := 0,
        reasoning := "Error occurred during processing",
        sources := [], chunksFound := 0, question := question } ∧
    answerQuestion question (Except.error e) (Except.ok g) =
      { answer := g.answer, confidence := g.confidence, reasoning := g.reasoning,
        sources := [], chunksFound := 0, question := question } :=
  ⟨rfl, rfl⟩

/-- `dotList` of a list with itself is a sum of squares. -/
theorem dotList_self_nonneg (a : List ℝ) : 0 ≤ dotList a a := by
  induction a with
  | nil => simp [dotList]
  | cons x a ih =>
    simp only [dotList, List.zipWith_cons_cons, List.sum_cons] at *
    nlinarith [sq_nonneg x]

theorem dotList_comm (a b : List ℝ) : dotList a b = dotList b a := by
  unfold dotList
  rw [List.zipWith_comm_of_comm _ mul_comm]

theorem dotList_cons (x y : ℝ) (a b : List ℝ) :
    dotList (x :: a) (y :: b) = x * y + dotList a b := by
  simp [dotList]

/-- Cauchy-Schwarz for `dotList`, squared form, by induction on both
lists. -/
theorem dotList_sq_le (a : List ℝ) : ∀ b : List ℝ,
    dotList a b ^ 2 ≤ dotList a a * dotList b b := by
  induction a with
  | nil => intro b; simp [dotList]
  | cons x a ih =>
    intro b
    cases b with
    | nil => simp [dotList]
    | cons y b =>
      have h := ih b
      have ha := dotList_self_nonneg a
      have hb := dotList_self_nonneg b
      rw [dotList_cons, dotList_cons, dotList_cons]
      set d := dotList a b with hd
      set A := dotList a a with hA
      set B := dotList b b with hB
      rcases eq_or_lt_of_le ha with hA0 | hApos
      · have hdz : d = 0 := by nlinarith [sq_nonneg d]
        rw [hdz, ← hA0]
        nlinarith [mul_nonneg (sq_nonneg x) hb]
      · nlinarith [sq_nonneg (x * d - A * y),
          mul_nonneg (sq_nonneg x) (sub_nonneg.mpr h),
          mul_nonneg hApos.le (sub_nonneg.mpr h), hApos]

/-- Cauchy-Schwarz in norm form: `|dot a b| ≤ normA * normB`. -/
theorem abs_dotList_le (a b : List ℝ) : |dotList a b| ≤ normList a * normList b := by
  have h := dotList_sq_le a b
  rw [normList, normList, ← Real.sqrt_mul (dotList_self_nonneg a), ← Real.sqrt_sq_eq_abs]
  exact Real.sqrt_le_sqrt h

/-- C9: cosine similarity is symmetric, bounded in `[-1, 1]`, and exactly
`0.0` when either input has zero norm (matching the explicit zero-norm
guard of `_cosine_similarity`). -/
theorem cosine_similarity_properties (a b : List ℝ) (hlen : a.length = b.length) :
    cosineSimilarity a b = cosineSimilarity b a ∧
    -1 ≤ cosineSimilarity a b ∧ cosineSimilarity a b ≤ 1 ∧
    (normList a = 0 ∨ normList b = 0 → cosineSimilarity a b = 0) := by
  constructor
  · by_cases h : normList a = 0 ∨ normList b = 0
    · rw [cosineSimilarity, if_pos h, cosineSimilarity, if_pos h.symm]
    · rw [cosineSimilarity, if_neg h, cosineSimilarity,
        if_neg (fun hc => h hc.symm), dotList_comm, mul_comm]
  · have hin : -1 ≤ cosineSimilarity a b ∧ cosineSimilarity a b ≤ 1 := by
      unfold cosineSimilarity
      split
      · norm_num
      · rename_i h
        push_neg at h
        have ha0 : 0 < normList a :=
          lt_of_le_of_ne (Real.sqrt_nonneg _) (Ne.symm h.1)
        have hb0 : 0 < normList b :=
          lt_of_le_of_ne (Real.sqrt_nonneg _) (Ne.symm h.2)
        have hpos : 0 < normList a * normList b := mul_pos ha0 hb0
        have habs : |dotList a b / (normList a * normList b)| ≤ 1 := by
          rw [abs_div, abs_of_pos hpos]
          exact (div_le_one hpos).mpr (abs_dotList_le a b)
        exact abs_le.mp habs
    exact ⟨hin.1, hin.2, fun h => by rw [cosineSimilarity, if_pos h]⟩

/-- Witness for C9 at the concrete equal-length vectors `[1, 0]`, `[0, 1]`. -/
theorem cosine_similarity_properties_witness :
    ([1, 0] : List ℝ).length = ([0, 1] : List ℝ).length ∧
    (cosineSimilarity [1, 0] [0, 1] = cosineSimilarity [0, 1] [1, 0] ∧
     -1 ≤ cosineSimilarity [1, 0] [0, 1] ∧ cosineSimilarity [1, 0] [0, 1] ≤ 1 ∧
     (normList [1, 0] = 0 ∨ normList [0, 1] = 0 → cosineSimilarity [1, 0] [0, 1] = 0)) :=
  ⟨rfl, cosine_similarity_properties [1, 0] [0, 1] rfl⟩

/-- Unpacking a successful score: the result wraps the candidate itself
and passed the `min_similarity` filter. -/
theorem scoreChunk_some {queryEmbedding : List ℝ} {minSimilarity : ℝ}
    {c : StoredChunk} {r : ScoredChunk}
    (h : scoreChunk queryEmbedding minSimilarity c = some r) :
    minSimilarity ≤ r.similarity ∧ r.chunk = c := by
  unfold scoreChunk at h
  split at h
  · exact absurd h (by simp)
  · split at h
    · exact absurd h (by simp)
    · simp only [] at h
      split at h
      · rename_i hle
        injection h with h
        subst h
        exact ⟨hle, rfl⟩
      · exact absurd h (by simp)

/-- Every search result arises from scoring one of the first 50 stored
rows and carries a similarity that passed the threshold filter. -/
theorem mem_searchSimilarChunks {queryEmbedding : List ℝ} {table : List StoredChunk}
    {limit : Nat} {minSimilarity : ℝ} {r : ScoredChunk}
    (hr : r ∈ searchSimilarChunks queryEmbedding table limit minSimilarity) :
    r.chunk ∈ table.take 50 ∧ minSimilarity ≤ r.similarity := by
  unfold searchSimilarChunks at hr
  have hr1 : r ∈ (getAllChunksWithEmbeddings table 50).filterMap
      (scoreChunk queryEmbedding minSimilarity) := by
    have hmem := List.mem_of_mem_take hr
    rwa [List.mem_mergeSort] at hmem
  obtain ⟨c, hc, hsc⟩ := List.mem_filterMap.mp hr1
  obtain ⟨hsim, hchunk⟩ := scoreChunk_some hsc
  exact ⟨hchunk ▸ hc, hsim⟩

/-- `searchLe` is transitive. -/
theorem searchLe_trans : ∀ x y z : ScoredChunk,
    searchLe x y = true → searchLe y z = true → searchLe x z = true := by
  intro x y z hxy hyz
  simp only [searchLe, decide_eq_true_eq] at *
  exact le_trans hyz hxy

/-- `searchLe` is total. -/
theorem searchLe_total : ∀ x y : ScoredChunk,
    (searchLe x y || searchLe y x) = true := by
  intro x y
  simp only [searchLe, Bool.or_eq_true, decide_eq_true_eq]
  exact le_total _ _

/-- C3: the similarity search returns at most `limit` results, every
returned result's similarity is at least `min_similarity`, and the
returned list is ordered by descending similarity. -/
theorem search_contract (queryEmbedding : List ℝ) (table : List StoredChunk)
    (limit : Nat) (minSimilarity : ℝ) :
    (searchSimilarChunks queryEmbedding table limit minSimilarity).length ≤ limit ∧
    (∀ r ∈ searchSimilarChunks queryEmbedding table limit minSimilarity,
      minSimilarity ≤ r.similarity) ∧
    List.Sorted (fun x y : ScoredChunk => y.similarity ≤ x.similarity)
      (searchSimilarChunks queryEmbedding table limit minSimilarity) := by
  refine ⟨List.length_take_le _ _, fun r hr => (mem_searchSimilarChunks hr).2, ?_⟩
  have hs := List.sorted_mergeSort searchLe_trans searchLe_total
    ((getAllChunksWithEmbeddings table 50).filterMap (scoreChunk queryEmbedding minSimilarity))
  have hs2 : List.Pairwise (fun x y : ScoredChunk => y.similarity ≤ x.similarity)
      (((getAllChunksWithEmbeddings table 50).filterMap
        (scoreChunk queryEmbedding minSimilarity)).mergeSort searchLe) :=
    hs.imp (fun h => by simpa [searchLe] using h)
  exact List.Pairwise.sublist (List.take_sublist _ _) hs2

/-- C10: the candidate pool of a similarity search is the first 50 rows
the store returns — a fixed constant independent of the caller's `limit`
and `min_similarity` — so every returned result comes from those 50 rows
and the search cannot see any later row however similar it is. -/
theorem search_candidate_pool_capped (queryEmbedding : List ℝ) (table : List StoredChunk)
    (limit : Nat) (minSimilarity : ℝ) :
    (∀ r ∈ searchSimilarChunks queryEmbedding table limit minSimilarity,
      r.chunk ∈ table.take 50) ∧
    searchSimilarChunks queryEmbedding table limit minSimilarity =
      searchSimilarChunks queryEmbedding (table.take 50) limit minSimilarity := by
  constructor
  · exact fun r hr => (mem_searchSimilarChunks hr).1
  · unfold searchSimilarChunks getAllChunksWithEmbeddings
    rw [List.take_take]
    norm_num

/-- C1: ingesting a document flagged confidential stores no chunk rows and
no embeddings (the chunks table is untouched), and — provided the
document's id is fresh, as the database generates it — no similarity
search over any query, limit and threshold ever returns a chunk belonging
to that document. -/
theorem confidential_document_excluded (table : List StoredChunk) (pdfId filename : String)
    (skipEmbeddings : Bool) (chunks : List (String × Nat)) (embs : List (Option (List ℝ)))
    (hfresh : ∀ r ∈ table, r.pdf_id ≠ pdfId) :
    ingestDocument table pdfId true skipEmbeddings filename chunks embs = table ∧
    ∀ (queryEmbedding : List ℝ) (limit : Nat) (minSimilarity : ℝ),
      ∀ r ∈ searchSimilarChunks queryEmbedding
          (ingestDocument table pdfId true skipEmbeddings filename chunks embs)
          limit minSimilarity,
        r.chunk.pdf_id ≠ pdfId := by
  have hident : ingestDocument table pdfId true skipEmbeddings filename chunks embs = table := by
    simp [ingestDocument]
  refine ⟨hident, ?_⟩
  intro queryEmbedding limit minSimilarity r hr
  rw [hident] at hr
  have hmem := (mem_searchSimilarChunks hr).1
  exact hfresh r.chunk (List.mem_of_mem_take hmem)

/-- Witness for C1: confidential ingestion into an empty store. -/
theorem confidential_document_excluded_witness :
    (∀ r ∈ ([] : List StoredChunk), r.pdf_id ≠ "doc1") ∧
    (ingestDocument [] "doc1" true false "f.pdf" [("text", 0)] [some [1]] = [] ∧
     ∀ (queryEmbedding : List ℝ) (limit : Nat) (minSimilarity : ℝ),
       ∀ r ∈ searchSimilarChunks queryEmbedding
           (ingestDocument [] "doc1" true false "f.pdf" [("text", 0)] [some [1]])
           limit minSimilarity,
         r.chunk.pdf_id ≠ "doc1") :=
  ⟨by simp,
   confidential_document_excluded [] "doc1" "f.pdf" false [("text", 0)] [some [1]] (by simp)⟩

/-- Witness for C5 at the concrete header-free reply `"hello there"`. -/
theorem parse_no_header_never_empty_witness :
    parseResponse "hello there" =
      { answer := "hello there", confidence := 50, reasoning := "" } ∧
    ("hello there" : String) ≠ "" ∧
    parseResponseHandled (some "boom") "hello there" =
      { answer := "hello there", confidence := 50,
        reasoning := "Error parsing response: boom" } := by
  have h := parse_no_header_never_empty "hello there" "boom" (by decide)
  exact ⟨h.1, by decide, h.2.2⟩

/-- `rfind` returns `-1` or an in-bounds index of a full occurrence. -/
theorem rfindList_cases (text pat : List Char) (lo hi : Nat) :
    rfindList text pat lo hi = -1 ∨
    ∃ i : Nat, rfindList text pat lo hi = (i : Int) ∧ lo ≤ i ∧
      i + pat.length ≤ min hi text.length := by
  unfold rfindList
  cases hlast : (rfindCands text pat lo hi).getLast? with
  | none => exact Or.inl rfl
  | some i =>
    right
    have hm := List.mem_of_getLast?_eq_some hlast
    unfold rfindCands at hm
    rw [List.mem_filter] at hm
    have hcond := hm.2
    simp only [Bool.and_eq_true, decide_eq_true_eq] at hcond
    exact ⟨i, rfl, hcond.1.1, hcond.1.2⟩

/-- One `best_pos` update keeps the value within `[0, stop]`. -/
theorem bestPosStep_bounds (text : List Char) (searchStart stop : Nat) (best : Int)
    (e : String) (h0 : 0 ≤ best) (h1 : best ≤ (stop : Int)) :
    0 ≤ bestPosStep text searchStart stop best e ∧
    bestPosStep text searchStart stop best e ≤ (stop : Int) := by
  unfold bestPosStep
  split
  · rename_i hgt
    rcases rfindList_cases text e.toList searchStart stop with hneg | ⟨i, heq, hlo, hhi⟩
    · rw [hneg] at hgt; omega
    · rw [heq]
      have hmin : min stop text.length ≤ stop := min_le_left _ _
      constructor
      · omega
      · omega
  · exact ⟨h0, h1⟩

/-- The whole `best_pos` fold stays within `[0, stop]`. -/
theorem foldl_bestPos_bounds (text : List Char) (searchStart stop : Nat) :
    ∀ (endings : List String) (init : Int), 0 ≤ init → init ≤ (stop : Int) →
      0 ≤ endings.foldl (bestPosStep text searchStart stop) init ∧
      endings.foldl (bestPosStep text searchStart stop) init ≤ (stop : Int) := by
  intro endings
  induction endings with
  | nil => intro init h0 h1; exact ⟨h0, h1⟩
  | cons e t ih =>
    intro init h0 h1
    rw [List.foldl_cons]
    have hstep := bestPosStep_bounds text searchStart stop init e h0 h1
    exact ih _ hstep.1 hstep.2

theorem sentenceBestPos_le (text : List Char) (searchStart stop : Nat) (init : Int)
    (h0 : 0 ≤ init) (h1 : init ≤ (stop : Int)) :
    sentenceBestPos text searchStart stop init ≤ (stop : Int) := by
  unfold sentenceBestPos
  exact (foldl_bestPos_bounds text searchStart stop _ init h0 h1).2

/-- The sentence boundary never moves the end past the nominal end. -/
theorem findSentenceBoundary_le (text : List Char) (s stop : Nat) (hs : s ≤ stop) :
    findSentenceBoundary text s stop ≤ stop := by
  unfold findSentenceBoundary
  split
  · have hb := sentenceBestPos_le text (max s (stop - 200)) stop (s : Int)
      (by omega) (by exact_mod_cast hs)
    omega
  · exact le_refl stop

/-- The word boundary never moves the end past the nominal end. -/
theorem findWordBoundary_le (text : List Char) (s stop : Nat) (hs : s ≤ stop) :
    findWordBoundary text s stop ≤ stop := by
  unfold findWordBoundary
  split
  · rename_i hgt
    rcases rfindList_cases text [' '] (max s (stop - 100)) stop with hneg | ⟨i, heq, hlo, hhi⟩
    · rw [hneg] at hgt; omega
    · rw [heq] at hgt ⊢
      simp only [List.length_cons, List.length_nil] at hhi
      omega
  · exact le_refl stop

/-- One iteration's chunk end never exceeds `start + chunk_size`. -/
theorem chunkEndPos_le (text : List Char) (chunkSize s : Nat) :
    chunkEndPos text chunkSize s ≤ s + chunkSize := by
  unfold chunkEndPos
  split
  · split
    · exact findSentenceBoundary_le text s (s + chunkSize) (Nat.le_add_right _ _)
    · split
      · exact findWordBoundary_le text s (s + chunkSize) (Nat.le_add_right _ _)
      · exact le_refl _
  · exact le_refl _

theorem chunkSpans_eq_cons (text : List Char) (chunkSize chunkOverlap s : Nat)
    (hs : s < text.length) :
    chunkSpans text chunkSize chunkOverlap s =
      (s, chunkEndPos text chunkSize s) ::
        chunkSpans text chunkSize chunkOverlap
          (max (s + 1) (chunkEndPos text chunkSize s - chunkOverlap)) := by
  conv_lhs => rw [chunkSpans.eq_def]
  rw [if_pos hs]

theorem chunkSpans_eq_nil (text : List Char) (chunkSize chunkOverlap s : Nat)
    (hs : ¬ s < text.length) :
    chunkSpans text chunkSize chunkOverlap s = [] := by
  conv_lhs => rw [chunkSpans.eq_def]
  rw [if_neg hs]

/-- The loop's advance is strictly positive, so the measure
`text.length - start` drops each iteration. -/
theorem nextStart_gt (chunkOverlap s e : Nat) : s + 1 ≤ max (s + 1) (e - chunkOverlap) :=
  le_max_left _ _

/-- Every visited span's end stays within `chunk_size` of its start. -/
theorem chunkSpans_stop_le (text : List Char) (chunkSize chunkOverlap : Nat) :
    ∀ start, ∀ p ∈ chunkSpans text chunkSize chunkOverlap start, p.2 ≤ p.1 + chunkSize := by
  have main : ∀ n start, text.length - start ≤ n →
      ∀ p ∈ chunkSpans text chunkSize chunkOverlap start, p.2 ≤ p.1 + chunkSize := by
    intro n
    induction n with
    | zero =>
      intro start h p hp
      rw [chunkSpans_eq_nil text chunkSize chunkOverlap start (by omega)] at hp
      exact absurd hp (List.not_mem_nil p)
    | succ n ih =>
      intro start h p hp
      by_cases hs : start < text.length
      · rw [chunkSpans_eq_cons text chunkSize chunkOverlap start hs] at hp
        rcases List.mem_cons.mp hp with hpe | hp2
        · rw [hpe]
          exact chunkEndPos_le text chunkSize start
        · exact ih _ (by
            have := nextStart_gt chunkOverlap start (chunkEndPos text chunkSize start)
            omega) p hp2
      · rw [chunkSpans_eq_nil text chunkSize chunkOverlap start hs] at hp
        exact absurd hp (List.not_mem_nil p)
  exact fun start => main (text.length - start) start le_rfl

/-- The loop runs at most `text.length - start` iterations. -/
theorem chunkSpans_length_le (text : List Char) (chunkSize chunkOverlap : Nat) :
    ∀ start, (chunkSpans text chunkSize chunkOverlap start).length ≤ text.length - start := by
  have main : ∀ n start, text.length - start ≤ n →
      (chunkSpans text chunkSize chunkOverlap start).length ≤ text.length - start := by
    intro n
    induction n with
    | zero =>
      intro start h
      rw [chunkSpans_eq_nil text chunkSize chunkOverlap start (by omega)]
      simp
    | succ n ih =>
      intro start h
      by_cases hs : start < text.length
      · rw [chunkSpans_eq_cons text chunkSize chunkOverlap start hs]
        simp only [List.length_cons]
        have hadv := nextStart_gt chunkOverlap start (chunkEndPos text chunkSize start)
        have hrec := ih (max (start + 1) (chunkEndPos text chunkSize start - chunkOverlap))
          (by omega)
        omega
      · rw [chunkSpans_eq_nil text chunkSize chunkOverlap start hs]
        simp
  exact fun start => main (text.length - start) start le_rfl

/-- The head of a span list starts at the loop's current position. -/
theorem chunkSpans_head_fst (text : List Char) (chunkSize chunkOverlap s : Nat) :
    ∀ q ∈ (chunkSpans text chunkSize chunkOverlap s).head?, q.1 = s := by
  intro q hq
  by_cases hs : s < text.length
  · rw [chunkSpans_eq_cons text chunkSize chunkOverlap s hs] at hq
    simp only [List.head?_cons, Option.mem_def, Option.some.injEq] at hq
    rw [← hq]
  · rw [chunkSpans_eq_nil text chunkSize chunkOverlap s hs] at hq
    simp at hq

/-- Consecutive spans are linked by the loop's advance rule
`start' = max(start + 1, end - chunk_overlap)`. -/
theorem chunkSpans_chain (text : List Char) (chunkSize chunkOverlap : Nat) :
    ∀ start, List.Chain' (fun p q : Nat × Nat => q.1 = max (p.1 + 1) (p.2 - chunkOverlap))
      (chunkSpans text chunkSize chunkOverlap start) := by
  have main : ∀ n start, text.length - start ≤ n →
      List.Chain' (fun p q : Nat × Nat => q.1 = max (p.1 + 1) (p.2 - chunkOverlap))
        (chunkSpans text chunkSize chunkOverlap start) := by
    intro n
    induction n with
    | zero =>
      intro start h
      rw [chunkSpans_eq_nil text chunkSize chunkOverlap start (by omega)]
      exact List.chain'_nil
    | succ n ih =>
      intro start h
      by_cases hs : start < text.length
      · rw [chunkSpans_eq_cons text chunkSize chunkOverlap start hs, List.chain'_cons']
        have hadv := nextStart_gt chunkOverlap start (chunkEndPos text chunkSize start)
        refine ⟨?_, ih _ (by omega)⟩
        intro q hq
        simpa using chunkSpans_head_fst text chunkSize chunkOverlap _ q hq
      · rw [chunkSpans_eq_nil text chunkSize chunkOverlap start hs]
        exact List.chain'_nil
  exact fun start => main (text.length - start) start le_rfl

/-- Every chunk the loop emits is a stripped slice and non-empty. -/
theorem splitLoop_mem (text : List Char) (chunkSize chunkOverlap : Nat) :
    ∀ start, ∀ c ∈ splitLoop text chunkSize chunkOverlap start,
      (∃ raw, c = stripChars raw) ∧ c ≠ [] := by
  have main : ∀ n start, text.length - start ≤ n →
      ∀ c ∈ splitLoop text chunkSize chunkOverlap start,
        (∃ raw, c = stripChars raw) ∧ c ≠ [] := by
    intro n
    induction n with
    | zero =>
      intro start h c hcm
      rw [splitLoop.eq_def, if_neg (by omega : ¬ start < text.length)] at hcm
      exact absurd hcm (List.not_mem_nil c)
    | succ n ih =>
      intro start h c hcm
      have hadv := nextStart_gt chunkOverlap start (chunkEndPos text chunkSize start)
      by_cases hs : start < text.length
      · rw [splitLoop.eq_def, if_pos hs] at hcm
        split at hcm
        · exact ih _ (by omega) c hcm
        · rename_i hne
          rcases List.mem_cons.mp hcm with rfl | h2
          · exact ⟨⟨_, rfl⟩, hne⟩
          · exact ih _ (by omega) c h2
      · rw [splitLoop.eq_def, if_neg hs] at hcm
        exact absurd hcm (List.not_mem_nil c)
  exact fun start => main (text.length - start) start le_rfl

/-- The head (if any) of `dropWhile p` does not satisfy `p`. -/
theorem dropWhile_head_not (p : Char → Bool) (l : List Char) :
    ∀ c ∈ (l.dropWhile p).head?, p c = false := by
  induction l with
  | nil => simp
  | cons a t ih =>
    rw [List.dropWhile_cons]
    split
    · exact ih
    · rename_i hpa
      intro c hc
      simp only [List.head?_cons, Option.mem_def, Option.some.injEq] at hc
      rw [← hc]
      exact Bool.not_eq_true _ ▸ hpa

/-- A list whose head does not satisfy `p` is fixed by `dropWhile p`. -/
theorem dropWhile_eq_self_of_head (p : Char → Bool) (l : List Char)
    (h : ∀ c ∈ l.head?, p c = false) : l.dropWhile p = l := by
  cases l with
  | nil => rfl
  | cons a t =>
    have ha := h a (by simp)
    rw [List.dropWhile_cons, if_neg (by simp [ha])]

/-- Python `strip()` is idempotent. -/
theorem stripChars_idem (l : List Char) : stripChars (stripChars l) = stripChars l := by
  unfold stripChars
  set A := l.dropWhile Char.isWhitespace with hA
  set B := A.reverse.dropWhile Char.isWhitespace with hB
  have h1 : B.reverse.dropWhile Char.isWhitespace = B.reverse := by
    apply dropWhile_eq_self_of_head
    intro c hc
    rw [List.head?_reverse] at hc
    by_cases hBe : B = []
    · rw [hBe] at hc; simp at hc
    · obtain ⟨t, ht⟩ := List.dropWhile_suffix (l := A.reverse) Char.isWhitespace
      have hgl : B.getLast? = A.reverse.getLast? := by
        rw [← ht, List.getLast?_append]
        cases hBl : B.getLast? with
        | none => exact absurd (List.getLast?_eq_none_iff.mp hBl) hBe
        | some x => simp
      rw [hgl, List.getLast?_reverse] at hc
      exact dropWhile_head_not _ _ c hc
  rw [h1, List.reverse_reverse,
    dropWhile_eq_self_of_head _ B (by rw [hB]; exact dropWhile_head_not _ _)]

/-- C2: the chunker is total — the loop runs at most `text.length`
iterations (one span per iteration, each advancing the start by at least
one) — the empty text yields no chunks, and every returned chunk is
already stripped and non-empty (hence non-empty after trimming, since
stripping is idempotent).  This holds for any `chunk_overlap`, including
`chunk_overlap ≥ chunk_size`. -/
theorem chunker_total_nonempty (text : List Char) (chunkSize chunkOverlap : Nat)
    (hcs : 1 ≤ chunkSize) :
    splitTextIntoChunks [] chunkSize chunkOverlap = [] ∧
    (chunkSpans text chunkSize chunkOverlap 0).length ≤ text.length ∧
    ∀ c ∈ splitTextIntoChunks text chunkSize chunkOverlap,
      stripChars c = c ∧ c ≠ [] := by
  refine ⟨rfl, by simpa using chunkSpans_length_le text chunkSize chunkOverlap 0, ?_⟩
  intro c hc
  have hc2 : c ∈ splitLoop text chunkSize chunkOverlap 0 := by
    unfold splitTextIntoChunks at hc
    split at hc
    · exact absurd hc (List.not_mem_nil c)
    · exact hc
  obtain ⟨⟨raw, hraw⟩, hne⟩ := splitLoop_mem text chunkSize chunkOverlap 0 c hc2
  exact ⟨by rw [hraw, stripChars_idem], hne⟩

/-- Witness for C2 at the concrete text `"ab cd ef"`, `chunk_size 4`,
`chunk_overlap 9` (an overlap larger than the chunk size). -/
theorem chunker_total_nonempty_witness :
    1 ≤ 4 ∧
    (splitTextIntoChunks [] 4 9 = [] ∧
     (chunkSpans "ab cd ef".toList 4 9 0).length ≤ "ab cd ef".toList.length ∧
     ∀ c ∈ splitTextIntoChunks "ab cd ef".toList 4 9,
       stripChars c = c ∧ c ≠ []) :=
  ⟨by decide, chunker_total_nonempty "ab cd ef".toList 4 9 (by decide)⟩

/-- C8: every span the chunking loop visits has its end within
`chunk_size` (in particular within `chunk_size + 200`, the sentence
look-back window) of its nominal start, and the positional overlap
between consecutive spans — previous end minus next start — is at most
`chunk_overlap`. -/
theorem chunk_spans_window_overlap (text : List Char) (chunkSize chunkOverlap : Nat)
    (hcs : 1 ≤ chunkSize) :
    (∀ p ∈ chunkSpans text chunkSize chunkOverlap 0, p.2 ≤ p.1 + chunkSize + 200) ∧
    List.Chain' (fun p q : Nat × Nat => p.2 - q.1 ≤ chunkOverlap)
      (chunkSpans text chunkSize chunkOverlap 0) := by
  constructor
  · intro p hp
    have h := chunkSpans_stop_le text chunkSize chunkOverlap 0 p hp
    omega
  · exact (chunkSpans_chain text chunkSize chunkOverlap 0).imp
      (fun p q h => by omega)

/-- Witness for C8 at the concrete text `"ab. cd. ef"`, `chunk_size 4`,
`chunk_overlap 2`. -/
theorem chunk_spans_window_overlap_witness :
    1 ≤ 4 ∧
    ((∀ p ∈ chunkSpans "ab. cd. ef".toList 4 2 0, p.2 ≤ p.1 + 4 + 200) ∧
     List.Chain' (fun p q : Nat × Nat => p.2 - q.1 ≤ 2)
       (chunkSpans "ab. cd. ef".toList 4 2 0)) :=
  ⟨by decide, chunk_spans_window_overlap "ab. cd. ef".toList 4 2 (by decide)⟩

end InvestorQA
